import Mathlib

/-!
# Alternating Least-Squares notebook — verification development

Shallow embedding of the `als` routine of the ALS notebook
(`def als(ratings, users, items, reps=10)`) and of the numpy
primitives it calls.

Modelling conventions:
* a 2-D numpy array of floats is modelled as a `List (List ℚ)` of rows
  (exact rationals in place of IEEE doubles — every claim below is about
  algebraic structure, shapes and ordering, not about rounding);
* a numpy operation that raises (shape mismatch in `dot`, elementwise
  broadcasting failure, an out-of-range index) is modelled as `none`;
  broadcasting of size-1 axes is not modelled — at every input analysed
  below the elementwise subtraction either matches shapes exactly or
  fails in numpy as well;
* `np.linalg.pinv` is modelled by the normal-equations formula
  `(AᵀA)⁻¹Aᵀ` that the notebook itself derives and demonstrates to agree
  with `np.linalg.pinv`; the formula coincides with the Moore–Penrose
  pseudo-inverse whenever `AᵀA` is invertible (general theorems carry
  that hypothesis; every concrete input below satisfies it);
* the loop's `print(np.sum(err))` is modelled by returning the list of
  printed error values alongside the result pair;
* the loop state (`ratings`, `ratings_cols`, `items` — the variables the
  loop body reads, with `items` the one it rebinds) is threaded
  explicitly through the iterations.
-/

open Matrix

namespace ALS

/-- A 2-D numpy array of rationals, as its list of rows. -/
abbrev NMat := List (List ℚ)

/-- `shape[1]` of a well-formed 2-D array: the length of the first row. -/
def width (A : NMat) : ℕ := (A.headD []).length

/-- Rectangularity: every row has the leading row's length
(`np.asarray` of the notebook's inputs always yields such data). -/
def rect (A : NMat) : Bool := A.all fun row => row.length == width A

/-- numpy transpose `A.T` of a rectangular 2-D array. -/
def transposeL (A : NMat) : NMat := List.transpose A

/-- numpy 1-D dot product (call sites check the length agreement). -/
def dotL (a b : List ℚ) : ℚ := (List.zipWith (· * ·) a b).sum

/-- numpy `M.dot(v)` for 2-D `M`, 1-D `v`; a shape mismatch raises,
modelled as `none`. -/
def matVec (M : NMat) (v : List ℚ) : Option (List ℚ) :=
  if M.all fun row => row.length == v.length then
    some (M.map fun row => dotL row v)
  else none

/-- numpy `A.dot(B)` for 2-D arrays: needs `A.shape[1] == B.shape[0]`. -/
def matMul (A B : NMat) : Option NMat :=
  if (A.all fun row => row.length == B.length) && rect B then
    some (A.map fun row => (transposeL B).map fun col => dotL row col)
  else none

/-- Exact elementwise shape agreement of two 2-D arrays. -/
def sameShape (R G : NMat) : Bool :=
  (R.length == G.length) && ((R.zip G).all fun p => p.1.length == p.2.length)

/-- `np.sum((R - G)**2)`: elementwise difference, squared, summed.
Mismatched shapes raise in numpy (broadcasting aside), modelled as `none`. -/
def sqErrSum (R G : NMat) : Option ℚ :=
  if sameShape R G then
    some ((List.zipWith
      (fun r g => ((List.zipWith (· - ·) r g).map fun x => x ^ 2).sum) R G).sum)
  else none

/-- Read a list matrix as a Mathlib matrix of the given shape
(entries outside the lists default to 0; callers establish `rect`). -/
def toFinM (A : NMat) (m n : ℕ) : Matrix (Fin m) (Fin n) ℚ :=
  Matrix.of fun i j => (A.getD i []).getD j 0

/-- Write a Mathlib matrix back to its list of rows. -/
def ofFinM {m n : ℕ} (M : Matrix (Fin m) (Fin n) ℚ) : NMat :=
  (List.finRange m).map fun i => (List.finRange n).map fun j => M i j

/-- Inverse of a square rational matrix by the adjugate formula
(the zero matrix when singular; uses below either carry a
nonsingularity hypothesis or instantiate at a nonsingular input). -/
def adjInv {n : ℕ} (M : Matrix (Fin n) (Fin n) ℚ) : Matrix (Fin n) (Fin n) ℚ :=
  (M.det)⁻¹ • M.adjugate

/-- The notebook's pseudo-inverse `(AᵀA)⁻¹Aᵀ` on Mathlib matrices. -/
def pinvFin {r k : ℕ} (C : Matrix (Fin r) (Fin k) ℚ) : Matrix (Fin k) (Fin r) ℚ :=
  adjInv (Cᵀ * C) * Cᵀ

/-- `np.linalg.pinv` on a list matrix (see the header for the modelling
of `pinv` by the notebook's own normal-equations formula). -/
def pinv (A : NMat) : Option NMat :=
  if rect A then some (ofFinM (pinvFin (toFinM A A.length (width A)))) else none

/-- Accumulating loop over a list where each step can raise: the shape
of the two `for ... append` loops of `als`. -/
def mapO {α β : Type} (f : α → Option β) : List α → Option (List β)
  | [] => some []
  | x :: xs => (f x).bind fun y => (mapO f xs).bind fun ys => some (y :: ys)

/-- The local variables the `als` loop body reads across iterations:
`ratings` and `ratings_cols = ratings.T` (only read), and `items`
(rebound to `new_items` at the end of each iteration). -/
structure LoopSt where
  ratings : NMat
  rcols : NMat
  items : NMat

/-- The user half-step:
`for i in range(len(ratings)): new_users.append(pinv(items).dot(ratings[i]))`.
The loop visits exactly the rows of `ratings` in order. -/
def usersStep (ratings items : NMat) : Option NMat :=
  (pinv items).bind fun P => mapO (fun row => matVec P row) ratings

/-- The item half-step:
`for i in range(len(ratings)): new_items.append(pinv(new_users).dot(ratings_cols[i]))`.
Note the loop bound is `len(ratings)` (the number of users) while the
indexing is into `ratings_cols` (one row per item): an out-of-range
index raises, modelled by the `rcols[i]?` lookup. -/
def itemsStep (ratings rcols newUsers : NMat) : Option NMat :=
  (pinv newUsers).bind fun P =>
    mapO (fun i => (rcols[i]?).bind fun col => matVec P col)
      (List.range ratings.length)

/-- One iteration of the `als` loop body: both half-steps, the
reconstruction `guess = new_users.dot(new_items.T)`, the printed error
`np.sum((ratings - guess)**2)`, and the rebinding `items = new_items`. -/
def advance (st : LoopSt) : Option (LoopSt × (NMat × NMat) × ℚ) :=
  (usersStep st.ratings st.items).bind fun newUsers =>
    (itemsStep st.ratings st.rcols newUsers).bind fun newItems =>
      (matMul newUsers (transposeL newItems)).bind fun guess =>
        (sqErrSum st.ratings guess).bind fun e =>
          some (⟨st.ratings, st.rcols, newItems⟩, (newUsers, newItems), e)

/-- `for _ in range(reps): ...` followed by `return new_users, new_items`:
runs the body `reps` times, returning the final loop state, the final
iteration's `(new_users, new_items)` pair and the printed errors.  With
`reps = 0` the loop never runs and the `return` reads the unassigned
`new_users` — a `NameError`, modelled as `none`. -/
def alsLoop : LoopSt → ℕ → Option (LoopSt × (NMat × NMat) × List ℚ)
  | _, 0 => none
  | st, n + 1 =>
    (advance st).bind fun x =>
      match n with
      | 0 => some (x.1, x.2.1, [x.2.2])
      | m + 1 =>
        (alsLoop x.1 (m + 1)).bind fun y => some (y.1, y.2.1, x.2.2 :: y.2.2)

/-- `def als(ratings, users, items, reps=10)`: computes
`ratings_cols = ratings.T` once, then runs the loop.  The `users`
argument appears in the signature but is never read by the body. -/
def als (ratings users items : NMat) (reps : ℕ) : Option ((NMat × NMat) × List ℚ) :=
  (alsLoop ⟨ratings, transposeL ratings, items⟩ reps).map fun x => x.2

/-- `n`-fold iteration of the loop body on the loop state alone. -/
def advanceN : LoopSt → ℕ → Option LoopSt
  | st, 0 => some st
  | st, n + 1 => (advance st).bind fun x => advanceN x.1 n

/-- Read a list vector as a Mathlib vector of the given length. -/
def toFinV (v : List ℚ) (n : ℕ) : Fin n → ℚ := fun i => v.getD i 0

/-- Write a Mathlib vector back to a list. -/
def ofFinV {n : ℕ} (x : Fin n → ℚ) : List ℚ := (List.finRange n).map x

/-- The least-squares objective `‖C·x − t‖²` of the spec's solving policy. -/
def lsq {r k : ℕ} (C : Matrix (Fin r) (Fin k) ℚ) (t : Fin r → ℚ)
    (x : Fin k → ℚ) : ℚ :=
  ∑ i, (C.mulVec x i - t i) ^ 2

/-- The shape invariants of the spec (§3/§4.1): `ratings : m×r`,
`users : m×k`, `items : r×k`, `k ≥ 1`, all arrays rectangular. -/
def specShapeOk (ratings users items : NMat) : Bool :=
  rect ratings && rect users && rect items &&
  (users.length == ratings.length) && (items.length == width ratings) &&
  (width users == width items) && (width users != 0)

/-! ## Evaluation and structure lemmas -/

lemma map_finRange_getD {α β : Type} (A : List α) (d : α) (f : α → β) :
    ((List.finRange A.length).map fun i => f (A.getD i.val d)) = A.map f := by
  apply List.ext_getElem
  · simp
  · intro i h1 h2
    simp [List.getD_eq_getElem]

lemma finRange_one_eq : List.finRange 1 = [0] := by
  simp [List.finRange_succ]

/-- The Gram matrix of a one-column coefficient matrix is the scalar
sum of squared entries. -/
lemma det_gram_one_col {r : ℕ} (C : Matrix (Fin r) (Fin 1) ℚ) :
    (Cᵀ * C).det = ∑ i, C i 0 ^ 2 := by
  rw [Matrix.det_fin_one]
  simp [Matrix.mul_apply, sq]

/-- For a one-column coefficient matrix the notebook's pseudo-inverse is
the scaled transpose. -/
lemma pinvFin_one_col {r : ℕ} (C : Matrix (Fin r) (Fin 1) ℚ) :
    pinvFin C = (∑ i, C i 0 ^ 2)⁻¹ • Cᵀ := by
  unfold pinvFin adjInv
  rw [Matrix.adjugate_fin_one, det_gram_one_col, Matrix.smul_mul,
    Matrix.one_mul]

/-- Fully evaluated `pinv` for a rectangular one-column matrix. -/
lemma pinv_width_one (A : NMat) (hrect : rect A = true) (hw : width A = 1) :
    pinv A =
      some [A.map fun row =>
        ((A.map fun row => row.getD 0 0 ^ 2).sum)⁻¹ * row.getD 0 0] := by
  have hsum : (∑ i, toFinM A A.length 1 i 0 ^ 2)
      = (A.map fun row => row.getD 0 0 ^ 2).sum := by
    rw [Fin.sum_univ_def]
    have harg : (fun i : Fin A.length => toFinM A A.length 1 i 0 ^ 2)
        = fun i : Fin A.length =>
            (fun row : List ℚ => row.getD 0 0 ^ 2) (A.getD i.val []) := by
      funext i
      simp only [toFinM, Matrix.of_apply, Fin.val_zero]
    rw [harg]
    exact congrArg List.sum
      (map_finRange_getD A [] fun row : List ℚ => row.getD 0 0 ^ 2)
  simp only [pinv, hrect, if_true]
  rw [hw, pinvFin_one_col, hsum]
  simp only [ofFinM, finRange_one_eq, List.map_cons, List.map_nil]
  have harg2 : (fun j : Fin A.length =>
      (((A.map fun row => row.getD 0 0 ^ 2).sum)⁻¹ • (toFinM A A.length 1)ᵀ) 0 j)
      = fun j : Fin A.length =>
          (fun row : List ℚ =>
            ((A.map fun row => row.getD 0 0 ^ 2).sum)⁻¹ * row.getD 0 0)
          (A.getD j.val []) := by
    funext j
    simp only [Matrix.smul_apply, Matrix.transpose_apply, toFinM,
      Matrix.of_apply, Fin.val_zero, smul_eq_mul]
  rw [harg2]
  exact congrArg (fun l => some [l])
    (map_finRange_getD A [] fun row : List ℚ =>
      ((A.map fun row => row.getD 0 0 ^ 2).sum)⁻¹ * row.getD 0 0)
/-- A successful `mapO` run produces one output per input, in order. -/
lemma mapO_eq_some {α β : Type} {f : α → Option β} :
    ∀ {xs : List α} {ys : List β}, mapO f xs = some ys →
      ys.length = xs.length ∧ ∀ i : ℕ, i < xs.length → ys[i]? = (xs[i]?).bind f := by
  intro xs
  induction xs with
  | nil =>
    intro ys h
    simp only [mapO, Option.some.injEq] at h
    subst h
    simp
  | cons x xs ih =>
    intro ys h
    simp only [mapO, Option.bind_eq_some, Option.some.injEq] at h
    obtain ⟨y, hy, ys', hys', hcons⟩ := h
    subst hcons
    obtain ⟨hlen, hidx⟩ := ih hys'
    refine ⟨by simp [hlen], ?_⟩
    intro i hi
    cases i with
    | zero => simp [hy]
    | succ j =>
      simp only [List.getElem?_cons_succ]
      exact hidx j (by simpa using hi)

/-- What a successful iteration of the loop body consists of. -/
lemma advance_eq_some {st st' : LoopSt} {p : NMat × NMat} {e : ℚ}
    (h : advance st = some (st', p, e)) :
    usersStep st.ratings st.items = some p.1 ∧
    itemsStep st.ratings st.rcols p.1 = some p.2 ∧
    (∃ guess, matMul p.1 (transposeL p.2) = some guess ∧
      sqErrSum st.ratings guess = some e) ∧
    st' = ⟨st.ratings, st.rcols, p.2⟩ := by
  unfold advance at h
  simp only [Option.bind_eq_some, Option.some.injEq] at h
  obtain ⟨U, hU, It, hIt, g, hg, e', he', hout⟩ := h
  simp only [Prod.mk.injEq] at hout
  obtain ⟨hst, hp, he⟩ := hout
  subst hp he hst
  exact ⟨hU, hIt, ⟨g, hg, he'⟩, rfl⟩

/-- The loop body never changes `ratings` or `ratings_cols`. -/
lemma advance_preserves {st st' : LoopSt} {p : NMat × NMat} {e : ℚ}
    (h : advance st = some (st', p, e)) :
    st'.ratings = st.ratings ∧ st'.rcols = st.rcols := by
  obtain ⟨-, -, -, hst⟩ := advance_eq_some h
  subst hst
  exact ⟨rfl, rfl⟩

/-- Neither do `n` iterations of it. -/
lemma advanceN_preserves :
    ∀ {n : ℕ} {st st' : LoopSt}, advanceN st n = some st' →
      st'.ratings = st.ratings ∧ st'.rcols = st.rcols := by
  intro n
  induction n with
  | zero =>
    intro st st' h
    simp only [advanceN, Option.some.injEq] at h
    subst h
    exact ⟨rfl, rfl⟩
  | succ m ih =>
    intro st st' h
    simp only [advanceN, Option.bind_eq_some] at h
    obtain ⟨⟨st1, p, e⟩, h1, h2⟩ := h
    obtain ⟨hr, hc⟩ := advance_preserves h1
    obtain ⟨hr', hc'⟩ := ih h2
    exact ⟨hr'.trans hr, hc'.trans hc⟩

/-- Unfolding equations of `alsLoop` at positive iteration counts. -/
lemma alsLoop_one (st : LoopSt) :
    alsLoop st 1 = (advance st).bind fun x => some (x.1, x.2.1, [x.2.2]) := rfl

lemma alsLoop_succ_succ (st : LoopSt) (m : ℕ) :
    alsLoop st (m + 2) =
      (advance st).bind fun x =>
        (alsLoop x.1 (m + 1)).bind fun y =>
          some (y.1, y.2.1, x.2.2 :: y.2.2) := rfl

/-- A successful `alsLoop` run decomposes as `n` plain iterations
followed by one final iteration producing the returned state and pair. -/
lemma alsLoop_last :
    ∀ {n : ℕ} {st st' : LoopSt} {p : NMat × NMat} {es : List ℚ},
      alsLoop st (n + 1) = some (st', p, es) →
      ∃ stMid e, advanceN st n = some stMid ∧ advance stMid = some (st', p, e) := by
  intro n
  induction n with
  | zero =>
    intro st st' p es h
    rw [alsLoop_one] at h
    simp only [Option.bind_eq_some, Option.some.injEq] at h
    obtain ⟨⟨st1, p1, e1⟩, h1, hout⟩ := h
    simp only [Prod.mk.injEq] at hout
    obtain ⟨hst, hp, hes⟩ := hout
    subst hst hp
    exact ⟨st, e1, rfl, h1⟩
  | succ m ih =>
    intro st st' p es h
    rw [alsLoop_succ_succ] at h
    simp only [Option.bind_eq_some, Option.some.injEq] at h
    obtain ⟨⟨st1, p1, e1⟩, h1, ⟨st2, p2, es2⟩, h2, hout⟩ := h
    simp only [Prod.mk.injEq] at hout
    obtain ⟨hst, hp, hes⟩ := hout
    subst hst hp
    obtain ⟨stMid, e, hN, hA⟩ := ih h2
    refine ⟨stMid, e, ?_, hA⟩
    simp only [advanceN, Option.bind_eq_some]
    exact ⟨(st1, p1, e1), h1, hN⟩

/-- The preservation facts lifted to `alsLoop`. -/
lemma alsLoop_preserves :
    ∀ {n : ℕ} {st st' : LoopSt} {p : NMat × NMat} {es : List ℚ},
      alsLoop st n = some (st', p, es) →
      st'.ratings = st.ratings ∧ st'.rcols = st.rcols := by
  intro n
  cases n with
  | zero => intro st st' p es h; simp [alsLoop] at h
  | succ m =>
    intro st st' p es h
    obtain ⟨stMid, e, hN, hA⟩ := alsLoop_last h
    obtain ⟨hr, hc⟩ := advance_preserves hA
    obtain ⟨hr', hc'⟩ := advanceN_preserves hN
    exact ⟨hr.trans hr', hc.trans hc'⟩


/-- A list of known length is the tabulation of its entries. -/
lemma list_eq_map_finRange {α : Type} {r : ℕ} (v : List α) (d : α)
    (hv : v.length = r) :
    v = (List.finRange r).map fun i => v.getD i.val d := by
  apply List.ext_getElem
  · simp [hv]
  · intro i h1 h2
    simp [List.getD_eq_getElem, hv]

/-- The list dot product of a tabulated row against a list of matching
length is the `Finset` dot product. -/
lemma dotL_finRange {r : ℕ} (f : Fin r → ℚ) (v : List ℚ) (hv : v.length = r) :
    dotL ((List.finRange r).map f) v = ∑ i, f i * toFinV v r i := by
  rw [Fin.sum_univ_def]
  unfold dotL
  conv_lhs => rw [list_eq_map_finRange v 0 hv]
  rw [List.zipWith_map, List.zipWith_same]
  rfl

/-- `M.dot(v)` on a written-back Mathlib matrix is `mulVec`. -/
lemma matVec_ofFinM {k r : ℕ} (P : Matrix (Fin k) (Fin r) ℚ) (v : List ℚ)
    (hv : v.length = r) :
    matVec (ofFinM P) v = some (ofFinV (P *ᵥ toFinV v r)) := by
  have hcond : ((ofFinM P).all fun row => row.length == v.length) = true := by
    simp [ofFinM, hv]
  unfold matVec
  rw [if_pos hcond]
  unfold ofFinM ofFinV
  rw [List.map_map]
  refine congrArg some (List.map_congr_left fun i _ => ?_)
  rw [Function.comp_apply, dotL_finRange (P i) v hv]
  rfl

/-- `adjInv` is a genuine right inverse on nonsingular matrices. -/
lemma mul_adjInv {n : ℕ} (M : Matrix (Fin n) (Fin n) ℚ) (h : M.det ≠ 0) :
    M * adjInv M = 1 := by
  unfold adjInv
  rw [Matrix.mul_smul, Matrix.mul_adjugate, smul_smul, inv_mul_cancel₀ h,
    one_smul]

/-- The normal equations: the solved vector `pinv(C)·t` satisfies
`CᵀC x = Cᵀ t`. -/
lemma pinvFin_normal {r k : ℕ} (C : Matrix (Fin r) (Fin k) ℚ)
    (hdet : (Cᵀ * C).det ≠ 0) (t : Fin r → ℚ) :
    (Cᵀ * C) *ᵥ (pinvFin C *ᵥ t) = Cᵀ *ᵥ t := by
  unfold pinvFin
  rw [Matrix.mulVec_mulVec, ← Matrix.mul_assoc, mul_adjInv _ hdet,
    Matrix.one_mul]

/-- The solved vector minimizes `‖C·x − t‖²` over all vectors (ordinary
least squares), provided the Gram matrix is nonsingular. -/
lemma pinvFin_lsq_min {r k : ℕ} (C : Matrix (Fin r) (Fin k) ℚ)
    (hdet : (Cᵀ * C).det ≠ 0) (t : Fin r → ℚ) (y : Fin k → ℚ) :
    lsq C t (pinvFin C *ᵥ t) ≤ lsq C t y := by
  set x := pinvFin C *ᵥ t with hx
  have horth : Cᵀ *ᵥ (C *ᵥ x - t) = 0 := by
    rw [Matrix.mulVec_sub, Matrix.mulVec_mulVec, hx, pinvFin_normal C hdet t,
      sub_self]
  have hcross : ∑ i, (C.mulVec x i - t i) * (C.mulVec (y - x) i) = 0 := by
    have hdp : (C *ᵥ x - t) ⬝ᵥ (C *ᵥ (y - x)) = 0 := by
      rw [Matrix.dotProduct_mulVec, ← Matrix.mulVec_transpose, horth,
        Matrix.zero_dotProduct]
    simpa [Matrix.dotProduct, Pi.sub_apply] using hdp
  have hexp : lsq C t y = lsq C t x + ∑ i, (C.mulVec (y - x) i) ^ 2 := by
    unfold lsq
    have hterm : ∀ i : Fin r, (C.mulVec y i - t i) ^ 2
        = ((C.mulVec x i - t i) ^ 2
            + (C.mulVec (y - x) i) ^ 2)
          + 2 * ((C.mulVec x i - t i) * (C.mulVec (y - x) i)) := by
      intro i
      have hsplit : C.mulVec y i = C.mulVec x i + C.mulVec (y - x) i := by
        simp [Matrix.mulVec_sub]
      rw [hsplit]
      ring
    rw [Finset.sum_congr rfl fun i _ => hterm i, Finset.sum_add_distrib,
      Finset.sum_add_distrib, ← Finset.mul_sum, hcross, mul_zero, add_zero]
  rw [hexp]
  exact le_add_of_nonneg_right (Finset.sum_nonneg fun i _ => sq_nonneg _)

/-- The elementwise squared error total is a sum of squares. -/
lemma zipWith_sumSq_nonneg :
    ∀ R G : NMat,
      0 ≤ (List.zipWith
        (fun r g => ((List.zipWith (· - ·) r g).map fun x => x ^ 2).sum) R G).sum := by
  intro R
  induction R with
  | nil => intro G; simp
  | cons r R ih =>
    intro G
    cases G with
    | nil => simp
    | cons g G =>
      simp only [List.zipWith_cons_cons, List.sum_cons]
      have h1 : 0 ≤ ((List.zipWith (· - ·) r g).map fun x => x ^ 2).sum := by
        apply List.sum_nonneg
        intro x hx
        obtain ⟨y, -, hy⟩ := List.mem_map.mp hx
        exact hy ▸ sq_nonneg y
      exact add_nonneg h1 (ih G)

/-- Whenever `np.sum((R - G)**2)` is computed, it is non-negative. -/
lemma sqErrSum_nonneg {R G : NMat} {e : ℚ} (h : sqErrSum R G = some e) : 0 ≤ e := by
  unfold sqErrSum at h
  split at h
  · exact Option.some.inj h ▸ zipWith_sumSq_nonneg R G
  · exact absurd h (by simp)

/-- The error printed by a loop iteration is non-negative. -/
lemma advance_err_nonneg {st st' : LoopSt} {p : NMat × NMat} {e : ℚ}
    (h : advance st = some (st', p, e)) : 0 ≤ e := by
  obtain ⟨-, -, ⟨g, -, hsq⟩, -⟩ := advance_eq_some h
  exact sqErrSum_nonneg hsq

/-- Every error in the list printed by the loop is non-negative. -/
lemma alsLoop_errs_nonneg :
    ∀ {n : ℕ} {st st' : LoopSt} {p : NMat × NMat} {es : List ℚ},
      alsLoop st n = some (st', p, es) → ∀ e ∈ es, 0 ≤ e := by
  intro n
  induction n with
  | zero => intro st st' p es h; simp [alsLoop] at h
  | succ m ih =>
    intro st st' p es h
    cases m with
    | zero =>
      rw [alsLoop_one] at h
      simp only [Option.bind_eq_some, Option.some.injEq] at h
      obtain ⟨⟨st1, p1, e1⟩, h1, hout⟩ := h
      simp only [Prod.mk.injEq] at hout
      obtain ⟨-, -, hes⟩ := hout
      subst hes
      intro e he
      simp only [List.mem_singleton] at he
      subst he
      exact advance_err_nonneg h1
    | succ k =>
      rw [alsLoop_succ_succ] at h
      simp only [Option.bind_eq_some, Option.some.injEq] at h
      obtain ⟨⟨st1, p1, e1⟩, h1, ⟨st2, p2, es2⟩, h2, hout⟩ := h
      simp only [Prod.mk.injEq] at hout
      obtain ⟨-, -, hes⟩ := hout
      subst hes
      intro e he
      rcases List.mem_cons.mp he with he1 | he2
      · exact he1 ▸ advance_err_nonneg h1
      · exact ih h2 e he2

/-! ## Concrete inputs -/

/-- The spec's concrete scenario: the 3×3 ratings matrix of all 3s. -/
def R3 : NMat := [[3, 3, 3], [3, 3, 3], [3, 3, 3]]

/-- 3×1 all-ones factor matrix (k = 1). -/
def ones31 : NMat := [[1], [1], [1]]

/-- The user factors the scenario solves to. -/
def threes31 : NMat := [[3], [3], [3]]

lemma pinv_ones31 : pinv [[(1 : ℚ)], [1], [1]] = some [[1/3, 1/3, 1/3]] := by
  rw [pinv_width_one _ (by decide) (by decide)]
  norm_num

lemma pinv_threes31 : pinv [[(3 : ℚ)], [3], [3]] = some [[1/9, 1/9, 1/9]] := by
  rw [pinv_width_one _ (by decide) (by decide)]
  norm_num

lemma transposeL_R3 :
    transposeL [[(3 : ℚ), 3, 3], [3, 3, 3], [3, 3, 3]]
      = [[3, 3, 3], [3, 3, 3], [3, 3, 3]] := rfl

lemma transposeL_ones31 : transposeL [[(1 : ℚ)], [1], [1]] = [[1, 1, 1]] := rfl

lemma transposeL_row13 : transposeL [[(1 : ℚ), 1, 1]] = [[1], [1], [1]] := rfl

/-- One fully evaluated loop pass on the spec's concrete scenario. -/
lemma alsLoop_R3_eval :
    alsLoop ⟨R3, transposeL R3, ones31⟩ 1
      = some (⟨[[3, 3, 3], [3, 3, 3], [3, 3, 3]],
               [[3, 3, 3], [3, 3, 3], [3, 3, 3]], [[1], [1], [1]]⟩,
          ([[3], [3], [3]], [[1], [1], [1]]), [0]) := by
  norm_num [alsLoop_one, advance, usersStep, itemsStep, mapO, pinv_ones31,
    pinv_threes31, matVec, dotL, matMul, sqErrSum, sameShape, rect, width,
    transposeL_R3, transposeL_ones31, transposeL_row13, R3, ones31, threes31]

lemma als_R3_eval : als R3 ones31 ones31 1 = some ((threes31, ones31), [0]) := by
  rw [als, alsLoop_R3_eval]
  norm_num [threes31, ones31]

lemma usersStep_R3_eval : usersStep R3 ones31 = some threes31 := by
  norm_num [usersStep, mapO, pinv_ones31, matVec, dotL, R3, ones31, threes31]

/-- A 3×2 ratings matrix (3 users, 2 items): a shape-correct input with
`m ≠ r` that exercises the item-loop bound. -/
def R32 : NMat := [[1, 2], [3, 4], [5, 6]]

/-- 2×1 all-ones factor matrix (k = 1). -/
def ones21 : NMat := [[1], [1]]

lemma pinv_ones21 : pinv [[(1 : ℚ)], [1]] = some [[1/2, 1/2]] := by
  rw [pinv_width_one _ (by decide) (by decide)]
  norm_num

lemma pinv_u32 :
    pinv [[(3 : ℚ)/2], [7/2], [11/2]] = some [[6/179, 14/179, 22/179]] := by
  rw [pinv_width_one _ (by decide) (by decide)]
  norm_num

lemma transposeL_R32 :
    transposeL [[(1 : ℚ), 2], [3, 4], [5, 6]] = [[1, 3, 5], [2, 4, 6]] := rfl

/-- The `m ≠ r` run: the item loop indexes `ratings_cols[2]` which does
not exist (`ratings_cols` has r = 2 rows), so the call raises. -/
lemma als_R32_eval : als R32 ones31 ones21 1 = none := by
  norm_num [als, alsLoop, advance, usersStep, itemsStep, mapO, pinv_ones21,
    pinv_u32, matVec, dotL, matMul, sqErrSum, sameShape, rect, width,
    transposeL_R32, R32, ones31, ones21]

/-- A 2×2 ratings matrix of all 3s. -/
def R2 : NMat := [[3, 3], [3, 3]]

/-- A deliberately mis-shaped (1×3) initial user-factor matrix. -/
def Ubad : NMat := [[1, 2, 3]]

lemma pinv_threes21 : pinv [[(3 : ℚ)], [3]] = some [[1/6, 1/6]] := by
  rw [pinv_width_one _ (by decide) (by decide)]
  norm_num

lemma transposeL_R2 : transposeL [[(3 : ℚ), 3], [3, 3]] = [[3, 3], [3, 3]] := rfl

lemma transposeL_ones21 : transposeL [[(1 : ℚ)], [1]] = [[1, 1]] := rfl

lemma transposeL_row12 : transposeL [[(1 : ℚ), 1]] = [[1], [1]] := rfl

/-- The run with a mis-shaped `users` argument completes normally. -/
lemma als_R2_eval : als R2 Ubad ones21 1 = some (([[3], [3]], [[1], [1]]), [0]) := by
  norm_num [als, alsLoop, advance, usersStep, itemsStep, mapO, pinv_ones21,
    pinv_threes21, matVec, dotL, matMul, sqErrSum, sameShape, rect, width,
    transposeL_R2, transposeL_ones21, transposeL_row12, R2, Ubad, ones21]

/-- A ratings/items mismatch fails only once the first dot product is
attempted (inside the first user solve), as a numpy shape error. -/
lemma als_R2_badItems : als R2 ones21 ones31 1 = none := by
  norm_num [als, alsLoop, advance, usersStep, itemsStep, mapO, pinv_ones31,
    matVec, dotL, R2, ones21, ones31]

/-- The Gram determinant at the scenario's item factors is 3. -/
lemma gram_ones31_det :
    ((toFinM ones31 ones31.length (width ones31))ᵀ
      * toFinM ones31 ones31.length (width ones31)).det = 3 := by
  show ((toFinM ones31 3 1)ᵀ * toFinM ones31 3 1).det = 3
  rw [det_gram_one_col, Fin.sum_univ_three]
  norm_num [toFinM, ones31]

/-- A successful `als` call is a successful `alsLoop` run on the
initial state built from its arguments. -/
lemma als_eq_some {r u it : NMat} {n : ℕ} {p : NMat × NMat} {es : List ℚ}
    (h : als r u it n = some (p, es)) :
    ∃ st', alsLoop ⟨r, transposeL r, it⟩ n = some (st', p, es) := by
  unfold als at h
  cases hL : alsLoop ⟨r, transposeL r, it⟩ n with
  | none => rw [hL] at h; cases h
  | some x =>
    rw [hL] at h
    obtain ⟨st', p', es'⟩ := x
    simp only [Option.map_some', Option.some.injEq, Prod.mk.injEq] at h
    obtain ⟨hp, hes⟩ := h
    subst hp hes
    exact ⟨st', rfl⟩

/-! ## Claims -/

/-- C1 (code bug): the claim says the item half-step performs one solve
per item column (r solves, giving an r×k ItemFactors even when m ≠ r);
the code's item loop instead runs `len(ratings)` = m times.  On the
shape-correct input `ratings : 3×2`, `users : 3×1`, `items : 2×1` the
third item solve indexes the nonexistent row 2 of `ratings_cols` and the
call raises instead of returning a 2×1 ItemFactors. -/
theorem als_item_loop_uses_user_count :
    specShapeOk R32 ones31 ones21 = true ∧ als R32 ones31 ones21 1 = none :=
  ⟨by decide, als_R32_eval⟩

/-- C2 (counterexample): a call whose `users` argument violates the
shape invariants (1×3 instead of 2×1) does not fail at all — it runs to
completion, because `users` is never read. -/
theorem als_users_shape_violation_undetected :
    specShapeOk R2 Ubad ones21 = false ∧
    als R2 Ubad ones21 1 = some (([[3], [3]], [[1], [1]]), [0]) :=
  ⟨by decide, als_R2_eval⟩

/-- C2 (amended): there is no eager ShapeMismatch check.  A violation in
the `users` argument is never detected (the result does not depend on
`users`), and a ratings/items incompatibility only fails when the first
inconsistent matrix operation is executed, inside the first user solve. -/
theorem als_shape_errors_lazy :
    (∀ users : NMat, als R2 users ones21 1 = als R2 Ubad ones21 1) ∧
    als R2 ones21 ones31 1 = none :=
  ⟨fun _ => rfl, als_R2_badItems⟩

/-- C3: on the spec's scenario (3×3 all-3s ratings, k = 1, all-1s
initial factors, one iteration) the factors solve to all-3s users and
all-1s items, the reported error list is [0], and the reconstruction
`UserFactors · ItemFactorsᵀ` reproduces the ratings matrix exactly. -/
theorem als_all_threes_exact_reconstruction :
    als R3 ones31 ones31 1 = some ((threes31, ones31), [0]) ∧
    matMul threes31 (transposeL ones31) = some R3 :=
  ⟨als_R3_eval, by
    norm_num [matMul, dotL, rect, width, transposeL_ones31, transposeL_row13,
      threes31, ones31, R3]⟩

/-- C4: the user half-step sends row `i` of `ratings` to
`pinv(items)·ratings[i]`, kept in row order, and (when the Gram matrix
`itemsᵀ·items` is nonsingular, where the notebook's pseudo-inverse
formula is defined) that vector minimizes `‖items·u − ratings[i]‖²` over
all `u` — the ordinary least-squares solution. -/
theorem usersStep_solves_least_squares
    {ratings items U : NMat} {i : ℕ} {row : List ℚ}
    (hU : usersStep ratings items = some U)
    (hrect : rect items = true)
    (hrow : ratings[i]? = some row)
    (hlen : row.length = items.length)
    (hdet : ((toFinM items items.length (width items))ᵀ
        * toFinM items items.length (width items)).det ≠ 0) :
    U[i]? = some (ofFinV
        (pinvFin (toFinM items items.length (width items))
          *ᵥ toFinV row items.length)) ∧
    ∀ y : Fin (width items) → ℚ,
      lsq (toFinM items items.length (width items))
          (toFinV row items.length)
          (pinvFin (toFinM items items.length (width items))
            *ᵥ toFinV row items.length)
        ≤ lsq (toFinM items items.length (width items))
            (toFinV row items.length) y := by
  constructor
  · unfold usersStep at hU
    simp only [Option.bind_eq_some] at hU
    obtain ⟨P, hP, hmap⟩ := hU
    unfold pinv at hP
    rw [if_pos hrect] at hP
    obtain rfl := Option.some.inj hP
    obtain ⟨-, hidx⟩ := mapO_eq_some hmap
    have hi : i < ratings.length := by
      by_contra hge
      rw [List.getElem?_eq_none (by omega)] at hrow
      cases hrow
    rw [hidx i hi, hrow]
    simp only [Option.some_bind]
    exact matVec_ofFinM _ row hlen
  · intro y
    exact pinvFin_lsq_min _ hdet _ y

/-- C4 witness: the user half-step of the concrete scenario, at row 0. -/
theorem usersStep_solves_least_squares_witness :
    usersStep R3 ones31 = some threes31 ∧
    rect ones31 = true ∧
    R3[0]? = some [3, 3, 3] ∧
    ([3, 3, 3] : List ℚ).length = ones31.length ∧
    ((toFinM ones31 ones31.length (width ones31))ᵀ
        * toFinM ones31 ones31.length (width ones31)).det ≠ 0 ∧
    (threes31[0]? = some (ofFinV
        (pinvFin (toFinM ones31 ones31.length (width ones31))
          *ᵥ toFinV [3, 3, 3] ones31.length)) ∧
      ∀ y : Fin (width ones31) → ℚ,
        lsq (toFinM ones31 ones31.length (width ones31))
            (toFinV [3, 3, 3] ones31.length)
            (pinvFin (toFinM ones31 ones31.length (width ones31))
              *ᵥ toFinV [3, 3, 3] ones31.length)
          ≤ lsq (toFinM ones31 ones31.length (width ones31))
              (toFinV [3, 3, 3] ones31.length) y) :=
  ⟨usersStep_R3_eval, by decide, by rfl, by decide,
    by simp [gram_ones31_det],
    usersStep_solves_least_squares usersStep_R3_eval (by decide) (by rfl)
      (by decide) (by simp [gram_ones31_det])⟩

/-- C5: for `n + 1` iterations, the returned pair is exactly the final
iteration's: the user factors are solved against the item factors
carried in from iteration `n` (the state after `n` loop body runs), and
the item factors against those new user factors. -/
theorem als_returns_final_iteration_pair
    {r u it U It : NMat} {es : List ℚ} {n : ℕ}
    (h : als r u it (n + 1) = some ((U, It), es)) :
    ∃ stMid : LoopSt,
      advanceN ⟨r, transposeL r, it⟩ n = some stMid ∧
      usersStep r stMid.items = some U ∧
      itemsStep r (transposeL r) U = some It := by
  obtain ⟨st', hL⟩ := als_eq_some h
  obtain ⟨stMid, e, hN, hA⟩ := alsLoop_last hL
  obtain ⟨hr, hc⟩ := advanceN_preserves hN
  obtain ⟨hUs, hIs, -, -⟩ := advance_eq_some hA
  rw [hr] at hUs
  rw [hr, hc] at hIs
  exact ⟨stMid, hN, hUs, hIs⟩

/-- C5 witness: the scenario run with one iteration. -/
theorem als_returns_final_iteration_pair_witness :
    als R3 ones31 ones31 1 = some ((threes31, ones31), [0]) ∧
    ∃ stMid : LoopSt,
      advanceN ⟨R3, transposeL R3, ones31⟩ 0 = some stMid ∧
      usersStep R3 stMid.items = some threes31 ∧
      itemsStep R3 (transposeL R3) threes31 = some ones31 :=
  ⟨als_R3_eval, als_returns_final_iteration_pair als_R3_eval⟩

/-- C6: `als` is a pure function of its four arguments — two calls with
equal arguments return equal results (there is no hidden randomness or
persistent state in the embedding of the loop). -/
theorem als_deterministic {r1 r2 u1 u2 i1 i2 : NMat} {n1 n2 : ℕ}
    (hr : r1 = r2) (hu : u1 = u2) (hi : i1 = i2) (hn : n1 = n2) :
    als r1 u1 i1 n1 = als r2 u2 i2 n2 := by
  subst hr
  subst hu
  subst hi
  subst hn
  rfl

/-- C6 witness: two identical calls on the concrete scenario. -/
theorem als_deterministic_witness :
    R3 = R3 ∧ ones31 = ones31 ∧ (1 : ℕ) = 1 ∧
    als R3 ones31 ones31 1 = als R3 ones31 ones31 1 :=
  ⟨rfl, rfl, rfl, als_deterministic rfl rfl rfl rfl⟩

/-- C7: every error value printed by the loop — the sum of elementwise
squared differences between the ratings matrix and the reconstruction —
is non-negative. -/
theorem als_reported_errors_nonneg {r u it : NMat} {n : ℕ}
    {p : NMat × NMat} {es : List ℚ} {e : ℚ}
    (h : als r u it n = some (p, es)) (he : e ∈ es) : 0 ≤ e := by
  obtain ⟨st', hL⟩ := als_eq_some h
  exact alsLoop_errs_nonneg hL e he

/-- C7 witness: the scenario's single reported error, 0. -/
theorem als_reported_errors_nonneg_witness :
    als R3 ones31 ones31 1 = some ((threes31, ones31), [0]) ∧
    (0 : ℚ) ∈ ([0] : List ℚ) ∧ (0 : ℚ) ≤ 0 :=
  ⟨als_R3_eval, by simp,
    als_reported_errors_nonneg als_R3_eval (by simp)⟩

/-- C8 (counterexample): with `reps = 0` the loop never runs, so the
`return` statement reads the never-assigned `new_users` and the call
raises (`NameError`) instead of returning single-pass factors. -/
theorem als_zero_reps_raises : als R3 ones31 ones31 0 = none := rfl

/-- C8 (amended): with `reps = 1` the returned factors are one
least-squares pass: each user row solved against the initial item
factors via `pinv`, and each of the first m ratings columns (all of
them when m = r) solved against those new user factors. `reps = 0`
fails instead of returning. -/
theorem als_one_rep_single_pass {r u it U It : NMat} {es : List ℚ}
    (h : als r u it 1 = some ((U, It), es)) :
    ∃ P Q : NMat, pinv it = some P ∧ pinv U = some Q ∧
      U.length = r.length ∧
      (∀ i : ℕ, i < r.length → U[i]? = (r[i]?).bind (matVec P)) ∧
      It.length = r.length ∧
      (∀ i : ℕ, i < r.length →
        It[i]? = ((transposeL r)[i]?).bind (matVec Q)) := by
  obtain ⟨st', hL⟩ := als_eq_some h
  rw [alsLoop_one] at hL
  simp only [Option.bind_eq_some, Option.some.injEq] at hL
  obtain ⟨⟨st1, p1, e1⟩, h1, hout⟩ := hL
  simp only [Prod.mk.injEq] at hout
  obtain ⟨hst, hp, hes⟩ := hout
  rw [hp] at h1
  obtain ⟨hUs, hIs, -, -⟩ := advance_eq_some h1
  unfold usersStep at hUs
  simp only [Option.bind_eq_some] at hUs
  obtain ⟨P, hP, hmapU⟩ := hUs
  unfold itemsStep at hIs
  simp only [Option.bind_eq_some] at hIs
  obtain ⟨Q, hQ, hmapI⟩ := hIs
  obtain ⟨hlenU, hidxU⟩ := mapO_eq_some hmapU
  obtain ⟨hlenI, hidxI⟩ := mapO_eq_some hmapI
  refine ⟨P, Q, hP, hQ, hlenU, fun i hi => hidxU i hi, ?_, ?_⟩
  · rw [hlenI]
    simp
  · intro i hi
    rw [hidxI i (by simpa using hi)]
    rw [List.getElem?_range hi]
    rfl

/-- C8 witness: the single-pass structure of the scenario run. -/
theorem als_one_rep_single_pass_witness :
    als R3 ones31 ones31 1 = some ((threes31, ones31), [0]) ∧
    ∃ P Q : NMat, pinv ones31 = some P ∧ pinv threes31 = some Q ∧
      threes31.length = R3.length ∧
      (∀ i : ℕ, i < R3.length → threes31[i]? = (R3[i]?).bind (matVec P)) ∧
      ones31.length = R3.length ∧
      (∀ i : ℕ, i < R3.length →
        ones31[i]? = ((transposeL R3)[i]?).bind (matVec Q)) :=
  ⟨als_R3_eval, als_one_rep_single_pass als_R3_eval⟩

/-- C9: the loop only reads `ratings` and the transpose `ratings_cols`
taken before the loop; after any successful run the `ratings` and
`ratings_cols` components of the loop state equal their initial
values. -/
theorem als_ratings_read_only {st st' : LoopSt} {p : NMat × NMat}
    {es : List ℚ} {n : ℕ} (h : alsLoop st n = some (st', p, es)) :
    st'.ratings = st.ratings ∧ st'.rcols = st.rcols :=
  alsLoop_preserves h

/-- C9 witness: the scenario run leaves `ratings` untouched. -/
theorem als_ratings_read_only_witness :
    alsLoop ⟨R3, transposeL R3, ones31⟩ 1
      = some (⟨[[3, 3, 3], [3, 3, 3], [3, 3, 3]],
               [[3, 3, 3], [3, 3, 3], [3, 3, 3]], [[1], [1], [1]]⟩,
          ([[3], [3], [3]], [[1], [1], [1]]), [0]) ∧
    ([[(3 : ℚ), 3, 3], [3, 3, 3], [3, 3, 3]] : NMat) = R3 ∧
    ([[(3 : ℚ), 3, 3], [3, 3, 3], [3, 3, 3]] : NMat) = transposeL R3 :=
  ⟨alsLoop_R3_eval, (als_ratings_read_only alsLoop_R3_eval).1,
    (als_ratings_read_only alsLoop_R3_eval).2⟩

/-- C10: the `users` parameter is never read by the body of `als`, so
two calls differing only in `users` agree exactly — including the
reported error values. -/
theorem als_independent_of_users_argument (r it : NMat) (n : ℕ)
    (u1 u2 : NMat) : als r u1 it n = als r u2 it n := rfl

end ALS
